import Mathlib

set_option linter.unusedVariables false

/-!
Shallow embedding of `large_file_splitter.py` and proofs about its
chunking/recovery contract.

The program compresses each large file into a single-entry `.zip` container,
splits the container into fixed-size numbered chunk files stored in a sibling
`<name>.dir` directory, and can later reassemble and extract the container to
recover the original file.

Modelling conventions:
  - a byte is a `Nat`; file contents are `Bytes := List Nat`;
  - the filesystem neighbourhood an operation touches (one parent directory
    with its regular files and its chunk subdirectories) is the state `FS`;
  - Python exceptions are modelled by `Except (String × FS) FS`: an error
    carries the exception name and the filesystem state at raise time
    (Python does not roll back earlier writes when an exception is raised);
  - the `zipfile` standard-library container is not part of the repository;
    it is modelled from the spec as an invertible single-entry encoding
    (`zipCompress` / `zipExtract`);
  - Python string and integer primitives (`endswith`, slicing,
    `Path.suffix`, `str`, `int`) are modelled character-exactly; `int()`
    follows CPython 3.11 (surrounding whitespace, one optional sign,
    underscore grouping, the Unicode Nd digit table).
-/

abbrev Bytes := List Nat

/-- Constant `MAX_SIZE` (line 9 of the source): the 1 MiB size threshold. -/
def MAX_SIZE : Nat := 1024 * 1024

/-- Constant `CHUNK_SIZE` (line 10 of the source): the 1 MiB chunk size. -/
def CHUNK_SIZE : Nat := 1024 * 1024

/-- Python `s.endswith(t)` (used at line 70 and in the scanner at line 135). -/
def strEndsWith (s t : String) : Bool := decide (t.data <:+ s.data)

/-- Python `s[:-n]` for `n ≥ 1` (used as `dir_name[:-4]` at line 73). -/
def strDropRight (s : String) (n : Nat) : String :=
  String.mk (s.data.take (s.data.length - n))

/-- Decimal digit to character, as Python's `str` renders digits. -/
def digitChar (d : Nat) : Char :=
  match d with
  | 0 => '0' | 1 => '1' | 2 => '2' | 3 => '3' | 4 => '4'
  | 5 => '5' | 6 => '6' | 7 => '7' | 8 => '8' | 9 => '9'
  | _ => '?'

/-- Fuel-bounded accumulator loop producing the decimal digits of `n`;
the fuel `n + 1` in `natToStr` always suffices. -/
def natToCharsAux : Nat → Nat → List Char → List Char
  | 0, _, acc => acc
  | fuel + 1, n, acc =>
    if n < 10 then digitChar n :: acc
    else natToCharsAux fuel (n / 10) (digitChar (n % 10) :: acc)

/-- Python decimal rendering `str(n)` of a nonnegative integer, as used by the
f-string `"{zip_path.name}.{chunk_num}"` at line 20. -/
def natToStr (n : Nat) : String := String.mk (natToCharsAux (n + 1) n [])

/-- The whitespace characters Python `int()` strips from both ends of its
string argument (CPython 3.11: 0x09-0x0D, space, 0x85, 0xA0, 0x1680,
0x2000-0x200A, 0x2028, 0x2029, 0x202F, 0x205F, 0x3000; note this is narrower
than `str.isspace`, which also accepts 0x1C-0x1F). -/
def pyIsSpace (c : Char) : Bool :=
  (9 ≤ c.toNat && c.toNat ≤ 13) || c.toNat == 32 || c.toNat == 133 ||
    c.toNat == 160 || c.toNat == 5760 || (8192 ≤ c.toNat && c.toNat ≤ 8202) ||
    c.toNat == 8232 || c.toNat == 8233 || c.toNat == 8239 || c.toNat == 8287 ||
    c.toNat == 12288

/-- The first code point (the zero) of every run of ten Unicode decimal
digits (category Nd) accepted by Python `int()`, per CPython 3.11's Unicode
tables; each run assigns values 0-9 in order. -/
def ndZeros : List Nat :=
  [48, 1632, 1776, 1984, 2406, 2534, 2662, 2790, 2918, 3046, 3174, 3302,
   3430, 3558, 3664, 3792, 3872, 4160, 4240, 6112, 6160, 6470, 6608, 6784,
   6800, 6992, 7088, 7232, 7248, 42528, 43216, 43264, 43472, 43504, 43600,
   44016, 65296, 66720, 68912, 69734, 69872, 69942, 70096, 70384, 70736,
   70864, 71248, 71360, 71472, 71904, 72016, 72784, 73040, 73120, 92768,
   92864, 93008, 120782, 120792, 120802, 120812, 120822, 123200, 123632,
   125264, 130032]

/-- Decimal value of a Unicode decimal digit, `none` for any other
character. -/
def pyDigitVal (c : Char) : Option Nat :=
  match ndZeros.find? (fun s => s ≤ c.toNat && c.toNat < s + 10) with
  | some s => some (c.toNat - s)
  | none => none

/-- True when no two adjacent characters are both underscores. -/
def noAdjacentUnderscores : List Char → Bool
  | a :: b :: rest => (!(a == '_' && b == '_')) && noAdjacentUnderscores (b :: rest)
  | _ => true

/-- The digit part of a Python integer literal as `int()` accepts it after
sign and whitespace handling: a nonempty sequence of decimal digits with
single underscores allowed strictly between digits ("5_0" parses to 50;
"_5", "5_" and "5__0" raise). Stated as the equivalent guard: nonempty, not
starting or ending with an underscore, no two adjacent underscores, every
other character a decimal digit. -/
def pyIntDigits (cs : List Char) : Option Nat :=
  if cs ≠ [] ∧ cs.head? ≠ some '_' ∧ cs.getLast? ≠ some '_' ∧
      noAdjacentUnderscores cs = true ∧
      ∀ c ∈ cs, c = '_' ∨ (pyDigitVal c).isSome = true
  then some ((cs.filter (fun c => c != '_')).foldl
    (fun a c => 10 * a + (pyDigitVal c).getD 0) 0)
  else none

/-- Python `int(s)` on a string, as the sort key of line 80 invokes it:
whitespace may surround a single optional ASCII sign followed by the
underscore-grouped digits; anything else raises `ValueError` (modelled as
`none`). -/
def pyInt (cs : List Char) : Option Int :=
  let t := ((cs.dropWhile pyIsSpace).reverse.dropWhile pyIsSpace).reverse
  if t.head? = some '+' then (pyIntDigits t.tail).map Int.ofNat
  else if t.head? = some '-' then (pyIntDigits t.tail).map (fun n => -Int.ofNat n)
  else (pyIntDigits t).map Int.ofNat

/-- Splits a character list around its last `'.'`, returning the parts before
and after it, or `none` when there is no dot. -/
def splitLastDot : List Char → Option (List Char × List Char)
  | [] => none
  | ch :: rest =>
    match splitLastDot rest with
    | some (b, a) => some (ch :: b, a)
    | none => if ch = '.' then some ([], rest) else none

/-- Model of pathlib's `Path.suffix` on a file name: the part from the last
dot on, provided that dot is neither the first nor the last character. -/
def pathSuffix (nm : String) : String :=
  match splitLastDot nm.data with
  | some (b, a) => if b ≠ [] ∧ a ≠ [] then String.mk ('.' :: a) else ""
  | none => ""

/-- Model of pathlib's `Path.with_suffix` with an empty suffix applied to a
file name (used at line 139): drops the final suffix when there is one. -/
def stripSuffix (nm : String) : String :=
  match splitLastDot nm.data with
  | some (b, a) => if b ≠ [] ∧ a ≠ [] then String.mk b else nm
  | none => nm

/-- The chunk sort key `int(x.suffix[1:])` of line 80, as an `Option`:
`none` models the `ValueError` raised when the final suffix of a matching
file name is not accepted by Python's integer parse `pyInt`. -/
def suffixNum (nm : String) : Option Int :=
  match splitLastDot nm.data with
  | some (b, a) => if b ≠ [] ∧ a ≠ [] then pyInt a else none
  | none => none

/-- A directory listing: file names with their byte contents, in directory
enumeration order. -/
abbrev Listing := List (String × Bytes)

/-- The filesystem neighbourhood of the operations: the regular files of the
parent directory and its subdirectories (the chunk `.dir` directories). -/
structure FS where
  files : Listing
  dirs : List (String × Listing)
deriving DecidableEq

/-- Write-or-overwrite in an association list, keeping the position of an
existing key and appending a fresh key at the end, the way a directory
listing evolves. -/
def setAssoc {α : Type} : List (String × α) → String → α → List (String × α)
  | [], nm, v => [(nm, v)]
  | (k, w) :: rest, nm, v =>
    if k = nm then (nm, v) :: rest else (k, w) :: setAssoc rest nm v

/-- Removal from an association list. -/
def eraseAssoc {α : Type} (l : List (String × α)) (nm : String) :
    List (String × α) :=
  l.filter (fun p => p.1 != nm)

/-- Contents of the regular file `nm`, if it exists. -/
def lookupFile (fs : FS) (nm : String) : Option Bytes := fs.files.lookup nm

/-- Listing of the subdirectory `nm`, if it exists. -/
def lookupDir (fs : FS) (nm : String) : Option Listing := fs.dirs.lookup nm

/-- Effect of `open(nm, 'wb')` plus a full write: create or overwrite. -/
def writeFile (fs : FS) (nm : String) (v : Bytes) : FS :=
  FS.mk (setAssoc fs.files nm v) fs.dirs

/-- Effect of `Path.unlink` (lines 55, 61, 105). -/
def removeFile (fs : FS) (nm : String) : FS :=
  FS.mk (eraseAssoc fs.files nm) fs.dirs

/-- Effect of `Path.mkdir(exist_ok=True)` (line 40): no-op when the directory
already exists. -/
def mkdirP (fs : FS) (nm : String) : FS :=
  if (fs.dirs.lookup nm).isSome then fs else FS.mk fs.files (fs.dirs ++ [(nm, [])])

/-- Replace the listing of subdirectory `nm`. -/
def setDir (fs : FS) (nm : String) (listing : Listing) : FS :=
  FS.mk fs.files (setAssoc fs.dirs nm listing)

/-- Effect of `shutil.rmtree` (line 111). -/
def removeDir (fs : FS) (nm : String) : FS :=
  FS.mk fs.files (eraseAssoc fs.dirs nm)

/-- String to byte values, one per character. -/
def strToBytes (s : String) : Bytes := s.data.map Char.toNat

/-- Byte values back to a string (inverse of `strToBytes`). -/
def bytesToStr (l : Bytes) : String := String.mk (l.map Char.ofNat)

/-- Modelled from the spec: the Compressor (spec §4.3; `zipfile.ZipFile(zip_path,
'w', ZIP_DEFLATED)` with `zipf.write(file_path, file_path.name)`, lines 46-47,
is standard-library code absent from the repository). The container is a
single-entry archive storing the entry name (the file's base name, no path
prefix) and the file's bytes; it is modelled as an invertible encoding, the
compression method being irrelevant to the contract. -/
def zipCompress (entryName : String) (data : Bytes) : Bytes :=
  (strToBytes entryName).length :: (strToBytes entryName ++ data)

/-- Modelled from the spec: the Decompressor (spec §4.4; `zipf.extractall`,
lines 99-100, is standard-library code absent from the repository). Recovers
the single entry stored by `zipCompress`; `none` models the `BadZipFile`
exception on a byte stream that is not such a container. -/
def zipExtract (container : Bytes) : Option (String × Bytes) :=
  match container with
  | [] => none
  | n :: rest =>
    if n ≤ rest.length then some (bytesToStr (rest.take n), rest.drop n)
    else none

/-- The read loop of `split_file` (lines 15-19): cut a byte stream into
successive blocks of `c` bytes, the last block possibly shorter. `f.read(0)`
returns an empty buffer, so a zero chunk size yields no blocks at all. -/
def splitChunks (c : Nat) (data : Bytes) : List Bytes :=
  if h : c = 0 ∨ data = [] then []
  else data.take c :: splitChunks c (data.drop c)
termination_by data.length
decreasing_by
  push_neg at h
  have h1 : 0 < data.length := List.length_pos.mpr h.2
  rw [List.length_drop]
  omega

/-- The chunk-numbering loop of `split_file`: `chunk_num` starts at 1 (line
14) and each block is written to `f"{zip_path.name}.{chunk_num}"` (line 20). -/
def numberChunks (zipName : String) : Nat → List Bytes → List (String × Bytes)
  | _, [] => []
  | k, b :: rest => (zipName ++ "." ++ natToStr k, b) :: numberChunks zipName (k + 1) rest

/-- `split_file` (lines 12-25): the chunk files it writes into the output
directory, as (name, contents) pairs in creation order. -/
def split_file (zipName : String) (maxChunkSize : Nat) (data : Bytes) :
    List (String × Bytes) :=
  numberChunks zipName 1 (splitChunks maxChunkSize data)

/-- Result of an orchestration step: Python exceptions carry the state of the
filesystem at raise time. -/
abbrev PyResult := Except (String × FS) FS

/-- `compress_and_split` (lines 27-63). Reads the source size; at or below
`MAX_SIZE` it returns with no effect (skip). Otherwise it creates the chunk
directory, writes the container, writes the chunks produced by `split_file`
into the directory, deletes the container and, when auto-remove is enabled,
deletes the source file. -/
def compress_and_split (fs : FS) (name : String) (autoRemove : Bool) : PyResult :=
  match lookupFile fs name with
  | none => Except.error ("FileNotFoundError", fs)
  | some data =>
    if data.length ≤ MAX_SIZE then Except.ok fs
    else
      let dirN := name ++ ".dir"
      let fs1 := mkdirP fs dirN
      let zipN := name ++ ".zip"
      let z := zipCompress name data
      let fs2 := writeFile fs1 zipN z
      let fs3 := setDir fs2 dirN
        ((split_file zipN CHUNK_SIZE z).foldl
          (fun acc p => setAssoc acc p.1 p.2) ((lookupDir fs2 dirN).getD []))
      let fs4 := removeFile fs3 zipN
      Except.ok (if autoRemove then removeFile fs4 name else fs4)

/-- The glob pattern `f"{original_name}.zip.*"` of line 79 applied to a file
name of the chunk directory. (Glob metacharacters inside the original name
are left undefined by the spec and are outside this model.) -/
def globZipChunk (origName nm : String) : Bool :=
  decide ((origName ++ ".zip.").data <+: nm.data)

/-- The chunk-directory entries matching the glob of line 79, in directory
enumeration order. -/
def chunkMatches (dirFiles : Listing) (origName : String) : Listing :=
  dirFiles.filter (fun p => globZipChunk origName p.1)

/-- Comparison used by `sorted(..., key=lambda x: int(x.suffix[1:]))` at
lines 79-80, on entries whose keys parse. -/
def chunkLe (a b : String × Bytes) : Prop :=
  (suffixNum a.1).getD 0 ≤ (suffixNum b.1).getD 0

instance : DecidableRel chunkLe :=
  fun a b => inferInstanceAs (Decidable (_ ≤ _))

/-- The `sorted` call of lines 79-80: stable sort of the matches by the
numeric value of the final suffix; `none` models the `ValueError` raised by
the key function when some matching name's final suffix is not accepted by
Python's integer parse. -/
def sortChunks (ms : Listing) : Option Listing :=
  if ms.all (fun p => (suffixNum p.1).isSome) then
    some (List.insertionSort chunkLe ms)
  else none

/-- `recover_file` (lines 65-113). Validates the `.dir` suffix (no-op
otherwise), globs and numerically sorts the chunk files (warning and no-op
when none match), concatenates them into the container at the parent
directory, extracts the single entry, deletes the container and, when
auto-remove is enabled, removes the chunk directory. A directory missing
from the state yields an empty listing, like an empty glob. -/
def recover_file (fs : FS) (dirName : String) (autoRemove : Bool) : PyResult :=
  if strEndsWith dirName ".dir" = false then Except.ok fs
  else
    let orig := strDropRight dirName 4
    let dirFiles := (lookupDir fs dirName).getD []
    match sortChunks (chunkMatches dirFiles orig) with
    | none => Except.error ("ValueError", fs)
    | some chunks =>
      if chunks.isEmpty then Except.ok fs
      else
        let zipN := orig ++ ".zip"
        let z := (chunks.map Prod.snd).flatten
        let fs1 := writeFile fs zipN z
        match zipExtract z with
        | none => Except.error ("BadZipFile", fs1)
        | some entry =>
          let fs2 := writeFile fs1 entry.1 entry.2
          let fs3 := removeFile fs2 zipN
          Except.ok (if autoRemove then removeDir fs3 dirName else fs3)

/-- A filesystem entry as the tree scanner sees it: the path components
reported by `item.parts` and whether the entry is a directory. -/
structure ScanEntry where
  parts : List String
  isDirEntry : Bool
deriving DecidableEq

/-- Python `item.name`: the final path component. -/
def entryName (e : ScanEntry) : String := e.parts.getLastD ""

/-- The scanner's skip rule (b) at line 139: a `.zip` entry whose name with
the suffix stripped exists on disk; `exist` is the `Path.exists` oracle. -/
def zipTempRule (exist : List String → Bool) (e : ScanEntry) : Bool :=
  pathSuffix (entryName e) == ".zip" &&
    exist (e.parts.dropLast ++ [stripSuffix (entryName e)])

/-- The scanner's skip rule (c) at line 143: the tool's own script file. -/
def scriptRule (e : ScanEntry) : Bool :=
  entryName e == "large_file_splitter.py"

/-- The split-mode skip decision of lines 131-144: directories, entries with
any path component ending in `.dir` (line 135 checks every component of
`item.parts`, the entry's own name included), `.zip` temporaries, and the
script itself are skipped. -/
def splitSkips (exist : List String → Bool) (e : ScanEntry) : Bool :=
  e.isDirEntry ||
    e.parts.any (fun p => strEndsWith p ".dir") ||
    zipTempRule exist e ||
    scriptRule e

/-- The entries of a split-mode scan that reach `compress_and_split` (line
147): exactly those the skip rules let through, in visit order. -/
def splitScanTargets (exist : List String → Bool) (entries : List ScanEntry) :
    List ScanEntry :=
  entries.filter (fun e => ! splitSkips exist e)

/-- One iteration of the scanner's per-entry try/except (lines 122-126 and
146-149): a raised exception is caught, an error line is appended to the
output log, and the state the exception left behind is kept. -/
def entryStep (proc : FS → ScanEntry → PyResult) (st : FS × List String)
    (e : ScanEntry) : FS × List String :=
  match proc st.1 e with
  | Except.ok fs2 => (fs2, st.2)
  | Except.error pr => (pr.2, st.2 ++ ["Error: " ++ pr.1])

/-- `scan_directory` (lines 115-149) over the sequence of visited entries:
a fold of the per-entry dispatch `proc` (mode selection, skip rules and the
orchestrator call) with the try/except wrapper around each entry. -/
def scan_directory (proc : FS → ScanEntry → PyResult) (st : FS × List String)
    (entries : List ScanEntry) : FS × List String :=
  entries.foldl (entryStep proc) st

/-! ### Association-list lemmas -/

theorem lookup_cons_self {α : Type} (k : String) (v : α) (l : List (String × α)) :
    List.lookup k ((k, v) :: l) = some v := by
  simp only [List.lookup, beq_self_eq_true]

theorem lookup_cons_ne {α : Type} (k nm : String) (v : α) (l : List (String × α))
    (h : k ≠ nm) : List.lookup k ((nm, v) :: l) = List.lookup k l := by
  have hb : (k == nm) = false := beq_eq_false_iff_ne.mpr h
  simp only [List.lookup, hb]

theorem lookup_append_of_none {α : Type} (k : String) (l1 l2 : List (String × α))
    (h : List.lookup k l1 = none) :
    List.lookup k (l1 ++ l2) = List.lookup k l2 := by
  induction l1 with
  | nil => rfl
  | cons p rest ih =>
    simp only [List.lookup, List.cons_append] at *
    rcases hb : (k == p.1) with _ | _ <;> simp only [hb] at h ⊢
    · exact ih h
    · exact Option.noConfusion h

theorem lookup_setAssoc_self {α : Type} (l : List (String × α)) (nm : String) (v : α) :
    List.lookup nm (setAssoc l nm v) = some v := by
  induction l with
  | nil => exact lookup_cons_self nm v []
  | cons p rest ih =>
    rw [setAssoc]
    by_cases hk : p.1 = nm
    · rw [if_pos hk]
      exact lookup_cons_self nm v _
    · rw [if_neg hk]
      rw [lookup_cons_ne nm p.1 p.2 _ (fun he => hk he.symm)]
      exact ih

theorem lookup_setAssoc_ne {α : Type} (l : List (String × α)) (k nm : String) (v : α)
    (h : k ≠ nm) : List.lookup k (setAssoc l nm v) = List.lookup k l := by
  induction l with
  | nil => exact lookup_cons_ne k nm v [] h
  | cons p rest ih =>
    obtain ⟨a, b⟩ := p
    rw [setAssoc]
    by_cases hk : a = nm
    · rw [if_pos hk, lookup_cons_ne k nm v rest h, hk]
      exact (lookup_cons_ne k nm b rest h).symm
    · rw [if_neg hk]
      by_cases hka : k = a
      · subst hka
        rw [lookup_cons_self, lookup_cons_self]
      · rw [lookup_cons_ne k a b _ hka, lookup_cons_ne k a b rest hka]
        exact ih

theorem lookup_eraseAssoc_self {α : Type} (l : List (String × α)) (nm : String) :
    List.lookup nm (eraseAssoc l nm) = none := by
  induction l with
  | nil => rfl
  | cons p rest ih =>
    obtain ⟨a, b⟩ := p
    by_cases hk : a = nm
    · rw [eraseAssoc, List.filter_cons_of_neg (by simp [hk])]
      exact ih
    · rw [eraseAssoc, List.filter_cons_of_pos (by simp [hk])]
      rw [lookup_cons_ne nm a b _ (fun he => hk he.symm)]
      exact ih

theorem lookup_eraseAssoc_ne {α : Type} (l : List (String × α)) (k nm : String)
    (h : k ≠ nm) : List.lookup k (eraseAssoc l nm) = List.lookup k l := by
  induction l with
  | nil => rfl
  | cons p rest ih =>
    obtain ⟨a, b⟩ := p
    by_cases hk : a = nm
    · rw [eraseAssoc, List.filter_cons_of_neg (by simp [hk])]
      rw [lookup_cons_ne k a b rest (hk ▸ h)]
      exact ih
    · rw [eraseAssoc, List.filter_cons_of_pos (by simp [hk])]
      by_cases hka : k = a
      · subst hka
        rw [lookup_cons_self, lookup_cons_self]
      · rw [lookup_cons_ne k a b _ hka, lookup_cons_ne k a b rest hka]
        exact ih

theorem setAssoc_of_none {α : Type} (l : List (String × α)) (nm : String) (v : α)
    (h : List.lookup nm l = none) : setAssoc l nm v = l ++ [(nm, v)] := by
  induction l with
  | nil => rfl
  | cons p rest ih =>
    rw [setAssoc]
    have hne : p.1 ≠ nm := by
      intro he
      rw [← he, lookup_cons_self] at h
      exact Option.noConfusion h
    rw [if_neg hne, List.cons_append]
    have hrest : List.lookup nm rest = none := by
      rw [lookup_cons_ne nm p.1 p.2 rest (fun he => hne he.symm)] at h
      exact h
    rw [ih hrest]

theorem setAssoc_append_self {α : Type} (l : List (String × α)) (nm : String) (w v : α)
    (h : List.lookup nm l = none) :
    setAssoc (l ++ [(nm, w)]) nm v = l ++ [(nm, v)] := by
  induction l with
  | nil => simp [setAssoc]
  | cons p rest ih =>
    have hne : p.1 ≠ nm := by
      intro he
      rw [← he, lookup_cons_self] at h
      exact Option.noConfusion h
    rw [List.cons_append, setAssoc, if_neg hne, List.cons_append]
    have hrest : List.lookup nm rest = none := by
      rw [lookup_cons_ne nm p.1 p.2 rest (fun he => hne he.symm)] at h
      exact h
    rw [ih hrest]

theorem foldl_setAssoc_fresh {α : Type} (ps : List (String × α)) :
    ∀ l : List (String × α), (∀ p ∈ ps, List.lookup p.1 l = none) →
    List.Pairwise (fun a b => a.1 ≠ b.1) ps →
    ps.foldl (fun acc p => setAssoc acc p.1 p.2) l = l ++ ps := by
  induction ps with
  | nil => intro l _ _; simp
  | cons p rest ih =>
    intro l hfresh hpair
    rw [List.foldl_cons, setAssoc_of_none l p.1 p.2 (hfresh p (by simp))]
    have hfresh2 : ∀ q ∈ rest, List.lookup q.1 (l ++ [(p.1, p.2)]) = none := by
      intro q hq
      rw [lookup_append_of_none q.1 l _ (hfresh q (List.mem_cons_of_mem p hq))]
      exact lookup_cons_ne q.1 p.1 p.2 [] (fun he => (List.pairwise_cons.mp hpair).1 q hq he.symm)
    rw [ih (l ++ [(p.1, p.2)]) hfresh2 (List.pairwise_cons.mp hpair).2]
    simp

/-! ### String lemmas -/

theorem strExt (a b : String) (h : a.data = b.data) : a = b := by
  cases a
  cases b
  exact congrArg String.mk h

theorem strEndsWith_append (s t : String) : strEndsWith (s ++ t) t = true :=
  decide_eq_true (by rw [String.data_append]; exact List.suffix_append s.data t.data)

theorem strDropRight_append (s t : String) :
    strDropRight (s ++ t) t.data.length = s := by
  apply strExt
  show (s ++ t).data.take ((s ++ t).data.length - t.data.length) = s.data
  rw [String.data_append, List.length_append]
  have h : s.data.length + t.data.length - t.data.length = s.data.length := by omega
  rw [h]
  exact List.take_left s.data t.data

theorem strDropRight_dir (s : String) : strDropRight (s ++ ".dir") 4 = s := by
  have h4 : (4 : Nat) = (".dir" : String).data.length := rfl
  rw [h4]
  exact strDropRight_append s ".dir"

theorem strNe_append (s t : String) (h : t.data ≠ []) : s ≠ s ++ t := by
  intro he
  have hlen := congrArg (fun x => x.data.length) he
  simp only [String.data_append, List.length_append] at hlen
  have : t.data.length = 0 := by omega
  exact h (List.length_eq_zero.mp this)

theorem strAppend_assoc (a b c : String) : a ++ b ++ c = a ++ (b ++ c) := by
  apply strExt
  simp only [String.data_append, List.append_assoc]

theorem strData_append_ne_nil (s t : String) (h : t.data ≠ []) : (s ++ t).data ≠ [] := by
  rw [String.data_append]
  intro he
  exact h (List.append_eq_nil.mp he).2

/-! ### Decimal rendering and parsing lemmas -/

theorem digitChar_props (d : Nat) (h : d < 10) :
    pyDigitVal (digitChar d) = some d ∧ digitChar d ≠ '.' ∧ digitChar d ≠ '_' ∧
      digitChar d ≠ '+' ∧ digitChar d ≠ '-' ∧ pyIsSpace (digitChar d) = false := by
  interval_cases d <;> exact ⟨rfl, by decide, by decide, by decide, by decide, rfl⟩

theorem dropWhile_eq_self_of_false (p : Char → Bool) (l : List Char)
    (h : ∀ c ∈ l, p c = false) : l.dropWhile p = l := by
  cases l with
  | nil => rfl
  | cons a rest =>
    rw [List.dropWhile_cons, h a (List.mem_cons_self a rest)]
    simp

theorem noAdjacentUnderscores_of_no_underscore (l : List Char)
    (h : ∀ c ∈ l, c ≠ '_') : noAdjacentUnderscores l = true := by
  induction l with
  | nil => rfl
  | cons a rest ih =>
    match rest with
    | [] => rfl
    | b :: rest2 =>
      rw [noAdjacentUnderscores,
        ih (fun c hc => h c (List.mem_cons_of_mem a hc)),
        beq_eq_false_iff_ne.mpr (h a (List.mem_cons_self a (b :: rest2)))]
      rfl

theorem natToCharsAux_spec :
    ∀ n fuel acc, n < fuel →
    ∃ w : List Char, natToCharsAux fuel n acc = w ++ acc ∧ w ≠ [] ∧
      (∀ c ∈ w, ∃ d, d < 10 ∧ c = digitChar d) ∧
      ∀ v : Nat, w.foldl (fun a c => 10 * a + (pyDigitVal c).getD 0) v =
        v * 10 ^ w.length + n := by
  intro n
  induction n using Nat.strong_induction_on with
  | _ n ih =>
    intro fuel acc hfuel
    match fuel with
    | 0 => omega
    | fuel + 1 =>
      by_cases h10 : n < 10
      · refine ⟨[digitChar n], ?_, by simp, ?_, ?_⟩
        · simp [natToCharsAux, if_pos h10]
        · intro c hc
          rw [List.mem_singleton] at hc
          exact ⟨n, h10, hc⟩
        · intro v
          simp only [List.foldl, (digitChar_props n h10).1, Option.getD_some,
            List.length_singleton, pow_one]
          ring
      · have hrec : n / 10 < n := Nat.div_lt_self (by omega) (by omega)
        have hfuel2 : n / 10 < fuel := by omega
        obtain ⟨w2, he, hne, hdig, hfold⟩ :=
          ih (n / 10) hrec fuel (digitChar (n % 10) :: acc) hfuel2
        have hm : n % 10 < 10 := Nat.mod_lt n (by omega)
        refine ⟨w2 ++ [digitChar (n % 10)], ?_, by simp, ?_, ?_⟩
        · rw [natToCharsAux, if_neg h10, he, List.append_assoc]
          rfl
        · intro c hc
          rcases List.mem_append.mp hc with hc | hc
          · exact hdig c hc
          · rw [List.mem_singleton] at hc
            exact ⟨n % 10, hm, hc⟩
        · intro v
          rw [List.foldl_append, hfold v]
          simp only [List.foldl, (digitChar_props (n % 10) hm).1, Option.getD_some,
            List.length_append, List.length_singleton, pow_succ]
          have hdm : 10 * (n / 10) + n % 10 = n := by omega
          calc 10 * (v * 10 ^ w2.length + n / 10) + n % 10
              = v * (10 ^ w2.length * 10) + (10 * (n / 10) + n % 10) := by ring
            _ = v * (10 ^ w2.length * 10) + n := by rw [hdm]

theorem natToStr_data (n : Nat) :
    (natToStr n).data ≠ [] ∧
      (∀ c ∈ (natToStr n).data, ∃ d, d < 10 ∧ c = digitChar d) ∧
      pyInt (natToStr n).data = some (Int.ofNat n) := by
  obtain ⟨w, he, hne, hdig, hfold⟩ := natToCharsAux_spec n (n + 1) [] (by omega)
  have hdata : (natToStr n).data = w := by
    show natToCharsAux (n + 1) n [] = w
    rw [he, List.append_nil]
  refine ⟨by rw [hdata]; exact hne, by rw [hdata]; exact hdig, ?_⟩
  rw [hdata]
  have hund : ∀ c ∈ w, c ≠ '_' := by
    intro c hc
    obtain ⟨d, hd, rfl⟩ := hdig c hc
    exact (digitChar_props d hd).2.2.1
  have hdigits : pyIntDigits w = some n := by
    rw [pyIntDigits, if_pos]
    · rw [List.filter_eq_self.mpr (fun c hc => bne_iff_ne.mpr (hund c hc)), hfold 0]
      simp
    · refine ⟨hne, ?_, ?_, ?_, ?_⟩
      · intro hh
        rcases hh2 : w.head? with _ | ch
        · rw [hh2] at hh
          exact Option.noConfusion hh
        · rw [hh2] at hh
          exact hund ch (List.mem_of_mem_head? hh2) (Option.some_inj.mp hh)
      · intro hh
        rcases hh2 : w.getLast? with _ | ch
        · rw [hh2] at hh
          exact Option.noConfusion hh
        · rw [hh2] at hh
          obtain ⟨hne2, hch⟩ := List.mem_getLast?_eq_getLast (Option.mem_iff.mpr hh2)
          exact hund ch (hch ▸ List.getLast_mem hne2) (Option.some_inj.mp hh)
      · exact noAdjacentUnderscores_of_no_underscore w hund
      · intro c hc
        refine Or.inr ?_
        obtain ⟨d, hd, rfl⟩ := hdig c hc
        rw [(digitChar_props d hd).1]
        rfl
  have hnosp : ∀ c ∈ w, pyIsSpace c = false := by
    intro c hc
    obtain ⟨d, hd, rfl⟩ := hdig c hc
    exact (digitChar_props d hd).2.2.2.2.2
  have hstrip : ((w.dropWhile pyIsSpace).reverse.dropWhile pyIsSpace).reverse = w := by
    rw [dropWhile_eq_self_of_false pyIsSpace w hnosp,
      dropWhile_eq_self_of_false pyIsSpace w.reverse
        (fun c hc => hnosp c (List.mem_reverse.mp hc)),
      List.reverse_reverse]
  obtain ⟨c, rest, rfl⟩ := List.exists_cons_of_ne_nil hne
  obtain ⟨d, hd, hcd⟩ := hdig c (List.mem_cons_self c rest)
  simp only [pyInt, hstrip, List.head?_cons]
  rw [if_neg (fun hh => (hcd ▸ (digitChar_props d hd).2.2.2.1) (Option.some_inj.mp hh)),
    if_neg (fun hh => (hcd ▸ (digitChar_props d hd).2.2.2.2.1) (Option.some_inj.mp hh)),
    hdigits, Option.map_some']

/-! ### Final-suffix lemmas -/

theorem splitLastDot_no_dot (a : List Char) (h : ∀ c ∈ a, c ≠ '.') :
    splitLastDot a = none := by
  induction a with
  | nil => rfl
  | cons c rest ih =>
    rw [splitLastDot, ih (fun x hx => h x (List.mem_cons_of_mem c hx))]
    exact if_neg (h c (List.mem_cons_self c rest))

theorem splitLastDot_append (b a : List Char) (hnd : ∀ c ∈ a, c ≠ '.') :
    splitLastDot (b ++ '.' :: a) = some (b, a) := by
  induction b with
  | nil =>
    show splitLastDot ('.' :: a) = some ([], a)
    rw [splitLastDot, splitLastDot_no_dot a hnd]
    exact if_pos rfl
  | cons c rest ih =>
    rw [List.cons_append, splitLastDot, ih]

theorem suffixNum_canonical (pre : String) (i : Nat) (hpre : pre.data ≠ []) :
    suffixNum (pre ++ "." ++ natToStr i) = some (Int.ofNat i) := by
  obtain ⟨hne, hdig, hparse⟩ := natToStr_data i
  have hd : (pre ++ "." ++ natToStr i).data = pre.data ++ '.' :: (natToStr i).data := by
    rw [String.data_append, String.data_append, List.append_assoc]
    rfl
  have hnd : ∀ c ∈ (natToStr i).data, c ≠ '.' := by
    intro c hc
    obtain ⟨d, hdlt, rfl⟩ := hdig c hc
    exact (digitChar_props d hdlt).2.1
  rw [suffixNum, hd, splitLastDot_append pre.data _ hnd]
  show (if pre.data ≠ [] ∧ (natToStr i).data ≠ [] then pyInt (natToStr i).data
    else none) = some (Int.ofNat i)
  rw [if_pos ⟨hpre, hne⟩]
  exact hparse

/-! ### Chunk-splitting lemmas -/

theorem splitChunks_eq_nil_iff (c : Nat) (data : Bytes) :
    splitChunks c data = [] ↔ c = 0 ∨ data = [] := by
  constructor
  · intro h
    by_contra hn
    rw [splitChunks, dif_neg hn] at h
    exact List.cons_ne_nil _ _ h
  · intro h
    rw [splitChunks, dif_pos h]

theorem splitChunks_flatten (c : Nat) (data : Bytes) (hc : 0 < c) :
    (splitChunks c data).flatten = data := by
  induction data using splitChunks.induct c with
  | case1 x h =>
    rw [splitChunks, dif_pos h]
    rcases h with h | h
    · omega
    · simp [h]
  | case2 x h ih =>
    rw [splitChunks, dif_neg h, List.flatten_cons, ih, List.take_append_drop]

theorem ceil_div_rec (c len : Nat) (hc : 0 < c) (hl : 0 < len) :
    (len + c - 1) / c = (len - c + c - 1) / c + 1 := by
  rcases Nat.lt_or_ge c len with h | h
  · have e1 : len - c + c - 1 = len - 1 := by omega
    have e2 : len + c - 1 = len - 1 + c := by omega
    rw [e1, e2, Nat.add_div_right _ hc]
  · have e1 : len - c = 0 := by omega
    have e2 : len + c - 1 = len - 1 + c := by omega
    rw [e1, e2, Nat.add_div_right _ hc, Nat.div_eq_of_lt (by omega),
      Nat.div_eq_of_lt (by omega)]

theorem splitChunks_length (c : Nat) (data : Bytes) (hc : 0 < c) :
    (splitChunks c data).length = (data.length + c - 1) / c := by
  induction data using splitChunks.induct c with
  | case1 x h =>
    rw [splitChunks, dif_pos h]
    rcases h with h | h
    · omega
    · subst h
      rw [List.length_nil, List.length_nil, Nat.div_eq_of_lt (by omega)]
  | case2 x h ih =>
    push_neg at h
    have hx : 0 < x.length := List.length_pos.mpr h.2
    rw [splitChunks, dif_neg (by push_neg; exact h), List.length_cons, ih,
      List.length_drop, ceil_div_rec c x.length hc hx]

theorem splitChunks_mem (c : Nat) (data : Bytes) (hc : 0 < c) :
    ∀ b ∈ splitChunks c data, b ≠ [] ∧ b.length ≤ c := by
  induction data using splitChunks.induct c with
  | case1 x h =>
    rw [splitChunks, dif_pos h]
    intro b hb
    exact absurd hb (List.not_mem_nil b)
  | case2 x h ih =>
    push_neg at h
    rw [splitChunks, dif_neg (by push_neg; exact h)]
    intro b hb
    rcases List.mem_cons.mp hb with hb | hb
    · subst hb
      constructor
      · rw [Ne, List.take_eq_nil_iff]
        push_neg
        exact ⟨h.1, h.2⟩
      · rw [List.length_take]
        omega
    · exact ih b hb

theorem splitChunks_dropLast_lengths (c : Nat) (data : Bytes) (hc : 0 < c) :
    ((splitChunks c data).map List.length).dropLast =
      List.replicate ((splitChunks c data).length - 1) c := by
  induction data using splitChunks.induct c with
  | case1 x h =>
    rw [splitChunks, dif_pos h]
    rfl
  | case2 x h ih =>
    push_neg at h
    have hx : 0 < x.length := List.length_pos.mpr h.2
    rw [splitChunks, dif_neg (by push_neg; exact h)]
    by_cases htail : splitChunks c (x.drop c) = []
    · rw [htail]
      rfl
    · have hlen : c < x.length := by
        rcases (not_iff_not.mpr (splitChunks_eq_nil_iff c (x.drop c))).mp htail |> not_or.mp
          with ⟨h1, h2⟩
        have := List.drop_eq_nil_iff.not.mp h2
        omega
      have hmapne : (splitChunks c (x.drop c)).map List.length ≠ [] := by
        intro he
        exact htail (List.map_eq_nil_iff.mp he)
      rw [List.map_cons, List.dropLast_cons_of_ne_nil hmapne, ih, List.length_cons]
      have htk : (x.take c).length = c := by
        rw [List.length_take]
        omega
      rw [htk]
      have hK : 0 < (splitChunks c (x.drop c)).length := List.length_pos.mpr htail
      have e1 : (splitChunks c (x.drop c)).length + 1 - 1
          = ((splitChunks c (x.drop c)).length - 1) + 1 := by omega
      rw [e1, List.replicate_succ]

theorem splitChunks_getLast_length (c : Nat) (data : Bytes) (hc : 0 < c) :
    data ≠ [] →
    ((splitChunks c data).map List.length).getLast? =
      some (data.length - ((splitChunks c data).length - 1) * c) := by
  induction data using splitChunks.induct c with
  | case1 x h =>
    intro hx
    rcases h with h | h
    · omega
    · exact absurd h hx
  | case2 x h ih =>
    intro hx
    push_neg at h
    rw [splitChunks, dif_neg (by push_neg; exact h)]
    by_cases htail : splitChunks c (x.drop c) = []
    · have hle : x.length ≤ c := by
        rcases (splitChunks_eq_nil_iff c (x.drop c)).mp htail with h1 | h1
        · omega
        · have := List.drop_eq_nil_iff.mp h1
          omega
      rw [htail]
      show some (x.take c).length = _
      rw [List.length_take]
      have : min c x.length = x.length := by omega
      rw [this]
      simp
    · have hdne : x.drop c ≠ [] := by
        intro he
        rw [he] at htail
        exact htail ((splitChunks_eq_nil_iff c []).mpr (Or.inr rfl))
      have hlen : c < x.length := by
        have := List.drop_eq_nil_iff.not.mp hdne
        omega
      have hmapne : (splitChunks c (x.drop c)).map List.length ≠ [] := by
        intro he
        exact htail (List.map_eq_nil_iff.mp he)
      obtain ⟨y, ys, hys⟩ := List.exists_cons_of_ne_nil hmapne
      rw [List.map_cons, hys, List.getLast?_cons_cons, ← hys, ih hdne]
      have hK : 0 < (splitChunks c (x.drop c)).length := List.length_pos.mpr htail
      congr 1
      rw [List.length_cons, List.length_drop]
      obtain ⟨m, hm⟩ : ∃ m, (splitChunks c (x.drop c)).length = m + 1 :=
        ⟨(splitChunks c (x.drop c)).length - 1, by omega⟩
      rw [hm]
      have e1 : m + 1 + 1 - 1 = m + 1 := by omega
      have e2 : m + 1 - 1 = m := by omega
      rw [e1, e2, Nat.succ_mul]
      generalize m * c = E
      omega

/-! ### Chunk-numbering lemmas -/

theorem numberChunks_map_snd (z : String) (bs : List Bytes) :
    ∀ k, (numberChunks z k bs).map Prod.snd = bs := by
  induction bs with
  | nil => intro k; rfl
  | cons b rest ih =>
    intro k
    rw [numberChunks, List.map_cons, ih (k + 1)]

theorem numberChunks_length (z : String) (bs : List Bytes) (k : Nat) :
    (numberChunks z k bs).length = bs.length := by
  have h := congrArg List.length (numberChunks_map_snd z bs k)
  rw [List.length_map] at h
  exact h

theorem numberChunks_map_fst (z : String) (bs : List Bytes) :
    ∀ k, (numberChunks z k bs).map Prod.fst =
      (List.range bs.length).map (fun i => z ++ "." ++ natToStr (k + i)) := by
  induction bs with
  | nil => intro k; rfl
  | cons b rest ih =>
    intro k
    rw [numberChunks, List.map_cons, ih (k + 1), List.length_cons,
      List.range_succ_eq_map, List.map_cons, List.map_map]
    refine congrArg₂ List.cons (by rw [Nat.add_zero]) ?_
    refine List.map_congr_left ?_
    intro i hi
    show z ++ "." ++ natToStr (k + 1 + i) = z ++ "." ++ natToStr (k + (i + 1))
    have : k + 1 + i = k + (i + 1) := by omega
    rw [this]

theorem numberChunks_mem (z : String) (bs : List Bytes) :
    ∀ k p, p ∈ numberChunks z k bs → ∃ j, k ≤ j ∧ p.1 = z ++ "." ++ natToStr j := by
  induction bs with
  | nil =>
    intro k p hp
    exact absurd hp (List.not_mem_nil p)
  | cons b rest ih =>
    intro k p hp
    rcases List.mem_cons.mp hp with hp | hp
    · exact ⟨k, Nat.le_refl k, by rw [hp]⟩
    · obtain ⟨j, hkj, he⟩ := ih (k + 1) p hp
      exact ⟨j, by omega, he⟩

theorem numberChunks_key (z : String) (bs : List Bytes) (k : Nat) (p : String × Bytes)
    (hz : z.data ≠ []) (hp : p ∈ numberChunks z k bs) :
    ∃ j, k ≤ j ∧ suffixNum p.1 = some (Int.ofNat j) := by
  obtain ⟨j, hkj, he⟩ := numberChunks_mem z bs k p hp
  exact ⟨j, hkj, by rw [he]; exact suffixNum_canonical z j hz⟩

theorem numberChunks_pairwise_le (z : String) (bs : List Bytes) (hz : z.data ≠ []) :
    ∀ k, List.Pairwise chunkLe (numberChunks z k bs) := by
  induction bs with
  | nil => intro k; exact List.Pairwise.nil
  | cons b rest ih =>
    intro k
    rw [numberChunks, List.pairwise_cons]
    refine ⟨?_, ih (k + 1)⟩
    intro q hq
    obtain ⟨j, hkj, hkey⟩ := numberChunks_key z rest (k + 1) q hz hq
    show (suffixNum (z ++ "." ++ natToStr k)).getD 0 ≤ (suffixNum q.1).getD 0
    rw [suffixNum_canonical z k hz, hkey]
    show Int.ofNat k ≤ Int.ofNat j
    exact Int.ofNat_le.mpr (by omega)

theorem numberChunks_pairwise_ne (z : String) (bs : List Bytes) (hz : z.data ≠ []) :
    ∀ k, List.Pairwise (fun a b => a.1 ≠ b.1)
      (numberChunks z k bs) := by
  induction bs with
  | nil => intro k; exact List.Pairwise.nil
  | cons b rest ih =>
    intro k
    rw [numberChunks, List.pairwise_cons]
    refine ⟨?_, ih (k + 1)⟩
    intro q hq he
    obtain ⟨j, hkj, hkey⟩ := numberChunks_key z rest (k + 1) q hz hq
    have hk : suffixNum (z ++ "." ++ natToStr k) = some (Int.ofNat k) :=
      suffixNum_canonical z k hz
    rw [← he, hk] at hkey
    have : k = j := Int.ofNat.inj (Option.some_injective Int hkey)
    omega

theorem zip_dot_append (orig : String) : orig ++ ".zip" ++ "." = orig ++ ".zip." := by
  apply strExt
  simp only [String.data_append, List.append_assoc]
  rfl

theorem globZipChunk_canonical (orig : String) (j : Nat) :
    globZipChunk orig (orig ++ ".zip" ++ "." ++ natToStr j) = true := by
  apply decide_eq_true
  rw [zip_dot_append, String.data_append]
  exact List.prefix_append _ _

theorem chunkMatches_numberChunks (orig : String) (bs : List Bytes) (k : Nat) :
    chunkMatches (numberChunks (orig ++ ".zip") k bs) orig =
      numberChunks (orig ++ ".zip") k bs := by
  rw [chunkMatches, List.filter_eq_self]
  intro p hp
  obtain ⟨j, hkj, he⟩ := numberChunks_mem (orig ++ ".zip") bs k p hp
  rw [he]
  exact globZipChunk_canonical orig j

theorem numberChunks_all_isSome (z : String) (bs : List Bytes) (k : Nat)
    (hz : z.data ≠ []) :
    (numberChunks z k bs).all (fun p => (suffixNum p.1).isSome) = true := by
  rw [List.all_eq_true]
  intro p hp
  obtain ⟨j, hkj, hkey⟩ := numberChunks_key z bs k p hz hp
  rw [hkey]
  rfl

theorem sortChunks_numberChunks (z : String) (bs : List Bytes) (hz : z.data ≠ []) :
    sortChunks (numberChunks z 1 bs) = some (numberChunks z 1 bs) := by
  have hall := numberChunks_all_isSome z bs 1 hz
  have hs : List.Sorted chunkLe (numberChunks z 1 bs) :=
    numberChunks_pairwise_le z bs hz 1
  rw [sortChunks, if_pos (by rw [hall] : ((numberChunks z 1 bs).all
    (fun p => (suffixNum p.1).isSome) : Prop)), List.Sorted.insertionSort_eq hs]

/-! ### Container lemmas -/

theorem bytesToStr_strToBytes (s : String) : bytesToStr (strToBytes s) = s := by
  apply strExt
  show (s.data.map Char.toNat).map Char.ofNat = s.data
  rw [List.map_map]
  have h : (Char.ofNat ∘ Char.toNat) = id := by
    funext c
    exact Char.ofNat_toNat c
  rw [h, List.map_id]

theorem zipExtract_zipCompress (nm : String) (data : Bytes) :
    zipExtract (zipCompress nm data) = some (nm, data) := by
  rw [zipCompress, zipExtract]
  rw [if_pos (by rw [List.length_append]; omega)]
  rw [List.take_left, List.drop_left, bytesToStr_strToBytes]

theorem zipCompress_ne_nil (nm : String) (data : Bytes) :
    zipCompress nm data ≠ [] :=
  List.cons_ne_nil _ _

/-! ### Orchestrator run lemmas -/

theorem mkdirP_files (fs : FS) (nm : String) : (mkdirP fs nm).files = fs.files := by
  rw [mkdirP]
  split <;> rfl

theorem mkdirP_dirs_of_none (fs : FS) (nm : String) (h : fs.dirs.lookup nm = none) :
    (mkdirP fs nm).dirs = fs.dirs ++ [(nm, [])] := by
  rw [mkdirP, h]
  rfl

theorem lookupFile_writeFile_self (fs : FS) (nm : String) (v : Bytes) :
    lookupFile (writeFile fs nm v) nm = some v :=
  lookup_setAssoc_self fs.files nm v

theorem lookupFile_writeFile_ne (fs : FS) (k nm : String) (v : Bytes) (h : k ≠ nm) :
    lookupFile (writeFile fs nm v) k = lookupFile fs k :=
  lookup_setAssoc_ne fs.files k nm v h

theorem lookupFile_removeFile_self (fs : FS) (nm : String) :
    lookupFile (removeFile fs nm) nm = none :=
  lookup_eraseAssoc_self fs.files nm

theorem lookupFile_removeFile_ne (fs : FS) (k nm : String) (h : k ≠ nm) :
    lookupFile (removeFile fs nm) k = lookupFile fs k :=
  lookup_eraseAssoc_ne fs.files k nm h

theorem lookupFile_setDir (fs : FS) (d : String) (listing : Listing) (k : String) :
    lookupFile (setDir fs d listing) k = lookupFile fs k := rfl

theorem lookupFile_removeDir (fs : FS) (d k : String) :
    lookupFile (removeDir fs d) k = lookupFile fs k := rfl

theorem lookupFile_mkdirP (fs : FS) (d k : String) :
    lookupFile (mkdirP fs d) k = lookupFile fs k := by
  show (mkdirP fs d).files.lookup k = fs.files.lookup k
  rw [mkdirP_files]

theorem lookupDir_writeFile (fs : FS) (nm : String) (v : Bytes) (d : String) :
    lookupDir (writeFile fs nm v) d = lookupDir fs d := rfl

theorem lookupDir_removeFile (fs : FS) (nm d : String) :
    lookupDir (removeFile fs nm) d = lookupDir fs d := rfl

theorem lookupDir_setDir_self (fs : FS) (d : String) (listing : Listing) :
    lookupDir (setDir fs d listing) d = some listing :=
  lookup_setAssoc_self fs.dirs d listing

theorem lookupDir_setDir_ne (fs : FS) (k d : String) (listing : Listing) (h : k ≠ d) :
    lookupDir (setDir fs d listing) k = lookupDir fs k :=
  lookup_setAssoc_ne fs.dirs k d listing h

theorem lookupDir_removeDir_self (fs : FS) (d : String) :
    lookupDir (removeDir fs d) d = none :=
  lookup_eraseAssoc_self fs.dirs d

theorem lookupDir_mkdirP_self_none (fs : FS) (d : String) (h : lookupDir fs d = none) :
    lookupDir (mkdirP fs d) d = some [] := by
  show (mkdirP fs d).dirs.lookup d = some []
  rw [mkdirP_dirs_of_none fs d h, lookup_append_of_none d fs.dirs _ h, lookup_cons_self]

theorem compress_and_split_run (fs : FS) (name : String) (data : Bytes) (ar : Bool)
    (hf : lookupFile fs name = some data) (hsz : MAX_SIZE < data.length) :
    compress_and_split fs name ar = Except.ok (
      let fs4 := removeFile
        (setDir (writeFile (mkdirP fs (name ++ ".dir")) (name ++ ".zip")
            (zipCompress name data))
          (name ++ ".dir")
          ((split_file (name ++ ".zip") CHUNK_SIZE (zipCompress name data)).foldl
            (fun acc p => setAssoc acc p.1 p.2)
            ((lookupDir (mkdirP fs (name ++ ".dir")) (name ++ ".dir")).getD [])))
        (name ++ ".zip")
      if ar then removeFile fs4 name else fs4) := by
  simp only [compress_and_split, hf]
  rw [if_neg (by omega)]
  rfl

theorem recover_file_run (fs : FS) (d : String) (ar : Bool) (l : Listing)
    (entry : String × Bytes)
    (hsuf : strEndsWith d ".dir" = true)
    (hsort : sortChunks (chunkMatches ((lookupDir fs d).getD [])
      (strDropRight d 4)) = some l)
    (hne : l ≠ [])
    (hex : zipExtract ((l.map Prod.snd).flatten) = some entry) :
    recover_file fs d ar = Except.ok (
      let fs3 := removeFile
        (writeFile (writeFile fs (strDropRight d 4 ++ ".zip") ((l.map Prod.snd).flatten))
          entry.1 entry.2)
        (strDropRight d 4 ++ ".zip")
      if ar then removeDir fs3 d else fs3) := by
  have hemp : l.isEmpty = false := by
    cases l
    · exact absurd rfl hne
    · rfl
  simp only [recover_file, hsuf, hsort, hemp, hex, Bool.true_eq_false, if_false,
    Bool.false_eq_true]

theorem compress_and_split_state (fs : FS) (name : String) (data : Bytes) (ar : Bool)
    (hf : lookupFile fs name = some data) (hsz : MAX_SIZE < data.length) :
    ∃ fs1, compress_and_split fs name ar = Except.ok fs1 ∧
      fs1.files = (if ar = true then
          eraseAssoc (eraseAssoc (setAssoc fs.files (name ++ ".zip")
            (zipCompress name data)) (name ++ ".zip")) name
        else eraseAssoc (setAssoc fs.files (name ++ ".zip")
          (zipCompress name data)) (name ++ ".zip")) ∧
      fs1.dirs = setAssoc (mkdirP fs (name ++ ".dir")).dirs (name ++ ".dir")
        ((split_file (name ++ ".zip") CHUNK_SIZE (zipCompress name data)).foldl
          (fun acc p => setAssoc acc p.1 p.2)
          ((lookupDir (mkdirP fs (name ++ ".dir")) (name ++ ".dir")).getD [])) := by
  refine ⟨_, compress_and_split_run fs name data ar hf hsz, ?_, ?_⟩ <;>
    rcases ar with _ | _ <;>
    simp [removeFile, setDir, writeFile, mkdirP_files]

theorem recover_file_state (fs : FS) (d : String) (ar : Bool) (l : Listing)
    (entry : String × Bytes)
    (hsuf : strEndsWith d ".dir" = true)
    (hsort : sortChunks (chunkMatches ((lookupDir fs d).getD [])
      (strDropRight d 4)) = some l)
    (hne : l ≠ [])
    (hex : zipExtract ((l.map Prod.snd).flatten) = some entry) :
    ∃ fs2, recover_file fs d ar = Except.ok fs2 ∧
      fs2.files = eraseAssoc (setAssoc (setAssoc fs.files
        (strDropRight d 4 ++ ".zip") ((l.map Prod.snd).flatten))
        entry.1 entry.2) (strDropRight d 4 ++ ".zip") ∧
      fs2.dirs = (if ar = true then eraseAssoc fs.dirs d else fs.dirs) := by
  refine ⟨_, recover_file_run fs d ar l entry hsuf hsort hne hex, ?_, ?_⟩ <;>
    rcases ar with _ | _ <;>
    simp [removeFile, writeFile, removeDir]

/-! ### The claims -/

/-- C2: a file whose size is at most the 1,048,576-byte threshold is skipped:
`compress_and_split` returns normally (a skip, not an error) and the
filesystem state is unchanged — no directory created, no container written,
no chunk written, source untouched. -/
theorem c2_skip_no_mutation (fs : FS) (name : String) (data : Bytes) (ar : Bool)
    (hf : lookupFile fs name = some data) (hsz : data.length ≤ MAX_SIZE) :
    compress_and_split fs name ar = Except.ok fs := by
  simp only [compress_and_split, hf]
  rw [if_pos hsz]

/-- Witness for C2 at a concrete three-byte file. -/
theorem c2_skip_no_mutation_witness :
    compress_and_split (FS.mk [("a", [1, 2, 3])] []) "a" true =
      Except.ok (FS.mk [("a", [1, 2, 3])] []) :=
  c2_skip_no_mutation (FS.mk [("a", [1, 2, 3])] []) "a" [1, 2, 3] true rfl (by decide)

/-- C3: for any byte stream and positive chunk size, `split_file` produces
chunk files numbered contiguously `1..K` with `K = ceil(length / chunkSize)`,
every chunk except possibly the last holds exactly `chunkSize` bytes, the
last holds the remainder, and no chunk is empty (in particular an exact
positive multiple of the chunk size yields no trailing empty chunk). -/
theorem c3_chunk_writer (zipName : String) (c : Nat) (data : Bytes) (hc : 0 < c) :
    (split_file zipName c data).length = (data.length + c - 1) / c ∧
    (split_file zipName c data).map Prod.fst =
      (List.range ((data.length + c - 1) / c)).map
        (fun i => zipName ++ "." ++ natToStr (i + 1)) ∧
    ((split_file zipName c data).map (fun p => p.2.length)).dropLast =
      List.replicate ((data.length + c - 1) / c - 1) c ∧
    (data ≠ [] →
      ((split_file zipName c data).map (fun p => p.2.length)).getLast? =
        some (data.length - ((data.length + c - 1) / c - 1) * c)) ∧
    ∀ p ∈ split_file zipName c data, p.2 ≠ [] := by
  have hm : (split_file zipName c data).map (fun p => p.2.length) =
      (splitChunks c data).map List.length := by
    rw [split_file,
      show (fun p : String × Bytes => p.2.length) = (List.length ∘ Prod.snd) from rfl,
      ← List.map_map, numberChunks_map_snd]
  have hK : (split_file zipName c data).length = (data.length + c - 1) / c := by
    rw [split_file, numberChunks_length, splitChunks_length c data hc]
  refine ⟨hK, ?_, ?_, ?_, ?_⟩
  · rw [split_file, numberChunks_map_fst, splitChunks_length c data hc]
    refine List.map_congr_left ?_
    intro i hi
    show zipName ++ "." ++ natToStr (1 + i) = zipName ++ "." ++ natToStr (i + 1)
    rw [Nat.add_comm]
  · rw [hm, splitChunks_dropLast_lengths c data hc, splitChunks_length c data hc]
  · intro hdata
    rw [hm, splitChunks_getLast_length c data hc hdata, splitChunks_length c data hc]
  · intro p hp
    rw [split_file] at hp
    have hmem : p.2 ∈ (numberChunks zipName 1 (splitChunks c data)).map Prod.snd :=
      List.mem_map_of_mem Prod.snd hp
    rw [numberChunks_map_snd] at hmem
    exact (splitChunks_mem c data hc p.2 hmem).1

/-- Witness for C3: a five-byte stream with chunk size two gives three chunks. -/
theorem c3_chunk_writer_witness :
    (split_file "f.zip" 2 [1, 2, 3, 4, 5]).length = (5 + 2 - 1) / 2 :=
  (c3_chunk_writer "f.zip" 2 [1, 2, 3, 4, 5] (by decide)).1

/-- C4: on a chunk directory whose matching `<orig>.zip.<N>` entries all have
final suffixes the integer parse accepts (the claim's numeral-suffix
domain), the chunk reader's sort succeeds and returns the
matches ordered by the numeric value of `N` (a permutation of the matches
that is sorted by the numeric key, so `.2` sorts before `.10`); the recovery
orchestrator then concatenates exactly this ordered list of contents. -/
theorem c4_numeric_sort (dirFiles : Listing) (orig : String)
    (hall : ∀ p ∈ chunkMatches dirFiles orig, (suffixNum p.1).isSome = true) :
    ∃ l, sortChunks (chunkMatches dirFiles orig) = some l ∧
      l.Perm (chunkMatches dirFiles orig) ∧ List.Pairwise chunkLe l := by
  refine ⟨List.insertionSort chunkLe (chunkMatches dirFiles orig), ?_, ?_, ?_⟩
  · rw [sortChunks, if_pos (by rw [List.all_eq_true.mpr hall] :
      ((chunkMatches dirFiles orig).all (fun p => (suffixNum p.1).isSome) : Prop))]
  · exact List.perm_insertionSort chunkLe _
  · haveI : IsTotal (String × Bytes) chunkLe := ⟨fun a b => Int.le_total _ _⟩
    haveI : IsTrans (String × Bytes) chunkLe := ⟨fun a b c hab hbc => Int.le_trans hab hbc⟩
    exact List.sorted_insertionSort chunkLe _

/-- Witness for C4: chunk files `.2`, `.10`, `.1` sort to order 1, 2, 10. -/
theorem c4_numeric_sort_witness :
    ∃ l, sortChunks (chunkMatches
        [("f.zip.2", [2]), ("f.zip.10", [10]), ("f.zip.1", [1])] "f") = some l ∧
      l.Perm (chunkMatches
        [("f.zip.2", [2]), ("f.zip.10", [10]), ("f.zip.1", [1])] "f") ∧
      List.Pairwise chunkLe l :=
  c4_numeric_sort [("f.zip.2", [2]), ("f.zip.10", [10]), ("f.zip.1", [1])] "f"
    (by decide)

/-- C7: recovering from a `.dir` directory that exists but holds no file
matching `<orig>.zip.<N>` only warns: the call returns normally with the
filesystem unchanged — no container, no extraction, and the chunk directory
survives even with auto-remove enabled. -/
theorem c7_no_chunks_warn (fs : FS) (d : String) (ar : Bool) (dirFiles : Listing)
    (hsuf : strEndsWith d ".dir" = true)
    (hdir : lookupDir fs d = some dirFiles)
    (hnone : chunkMatches dirFiles (strDropRight d 4) = []) :
    recover_file fs d ar = Except.ok fs := by
  have hs : sortChunks (chunkMatches dirFiles (strDropRight d 4)) = some [] := by
    rw [hnone]
    rfl
  simp only [recover_file, hdir, Option.getD_some, hs]
  rw [if_neg (by rw [hsuf]; exact fun h => Bool.noConfusion h)]
  rfl

/-- Witness for C7 on a directory holding one non-matching file, with
auto-remove enabled. -/
theorem c7_no_chunks_warn_witness :
    recover_file (FS.mk [] [("f.dir", [("x", [7])])]) "f.dir" true =
      Except.ok (FS.mk [] [("f.dir", [("x", [7])])]) :=
  c7_no_chunks_warn (FS.mk [] [("f.dir", [("x", [7])])]) "f.dir" true
    [("x", [7])] (by decide) rfl (by decide)

/-- C9: a per-entry failure is caught by the scanner's try/except: the scan
of `e :: rest` equals the scan of `rest` from the state the exception left
behind, with an error line appended to the log — the failure is logged,
every subsequent entry is still visited, and the run completes normally for
any per-entry dispatch `proc` (either mode's orchestrator call). -/
theorem c9_failure_isolated (proc : FS → ScanEntry → PyResult) (fs fs2 : FS)
    (log : List String) (e : ScanEntry) (rest : List ScanEntry) (msg : String)
    (h : proc fs e = Except.error (msg, fs2)) :
    scan_directory proc (fs, log) (e :: rest) =
      scan_directory proc (fs2, log ++ ["Error: " ++ msg]) rest := by
  simp only [scan_directory, List.foldl_cons, entryStep, h]

/-- Witness for C9: a recovery failure (bad chunk suffix) on the first entry
leaves the second entry's scan to proceed from an unchanged state. -/
theorem c9_failure_isolated_witness :
    scan_directory (fun s e2 => recover_file s (entryName e2) false)
        (FS.mk [] [("d.dir", [("d.zip.bak", [])])], [])
        [ScanEntry.mk ["d.dir"] true, ScanEntry.mk ["x"] false] =
      scan_directory (fun s e2 => recover_file s (entryName e2) false)
        (FS.mk [] [("d.dir", [("d.zip.bak", [])])], ["Error: " ++ "ValueError"])
        [ScanEntry.mk ["x"] false] :=
  c9_failure_isolated (fun s e2 => recover_file s (entryName e2) false)
    (FS.mk [] [("d.dir", [("d.zip.bak", [])])])
    (FS.mk [] [("d.dir", [("d.zip.bak", [])])]) []
    (ScanEntry.mk ["d.dir"] true) [ScanEntry.mk ["x"] false] "ValueError" rfl

/-- C10: the sort key of recovery parses the final suffix of every matching
chunk file with Python's `int()` (whitespace-padded, optionally signed,
underscore-grouped Unicode decimal digits). If some matching file's final
suffix is rejected by that parse (for example `.bak`), the key raises and
recovery fails with a `ValueError` whose carried state is the untouched
input state — before any container is written. If every matching file's
final suffix parses — in particular whenever every one is a plain decimal
numeral — that failure branch is unreachable. -/
theorem c10_sort_key_parse (fs : FS) (d : String) (ar : Bool)
    (hsuf : strEndsWith d ".dir" = true) :
    ((∃ p ∈ chunkMatches ((lookupDir fs d).getD []) (strDropRight d 4),
        suffixNum p.1 = none) →
      recover_file fs d ar = Except.error ("ValueError", fs)) ∧
    ((∀ p ∈ chunkMatches ((lookupDir fs d).getD []) (strDropRight d 4),
        (suffixNum p.1).isSome = true) →
      ∀ fs2, recover_file fs d ar ≠ Except.error ("ValueError", fs2)) := by
  constructor
  · rintro ⟨p, hp, hpnone⟩
    have hs : sortChunks (chunkMatches ((lookupDir fs d).getD [])
        (strDropRight d 4)) = none := by
      rw [sortChunks, if_neg]
      intro hcontra
      have := List.all_eq_true.mp hcontra p hp
      rw [hpnone] at this
      exact Bool.noConfusion this
    simp only [recover_file, hs]
    rw [if_neg (by rw [hsuf]; exact fun h => Bool.noConfusion h)]
  · intro hall fs2 hcontra
    have hs : sortChunks (chunkMatches ((lookupDir fs d).getD [])
        (strDropRight d 4)) = some (List.insertionSort chunkLe
          (chunkMatches ((lookupDir fs d).getD []) (strDropRight d 4))) := by
      rw [sortChunks, if_pos (by rw [List.all_eq_true.mpr hall] :
        ((chunkMatches ((lookupDir fs d).getD []) (strDropRight d 4)).all
          (fun p => (suffixNum p.1).isSome) : Prop))]
    simp only [recover_file, hs] at hcontra
    rw [if_neg (by rw [hsuf]; exact fun h => Bool.noConfusion h)] at hcontra
    by_cases he : (List.insertionSort chunkLe
        (chunkMatches ((lookupDir fs d).getD []) (strDropRight d 4))).isEmpty = true
    · rw [if_pos he] at hcontra
      exact Except.noConfusion hcontra
    · rw [if_neg he] at hcontra
      rcases hz : zipExtract ((List.map Prod.snd (List.insertionSort chunkLe
          (chunkMatches ((lookupDir fs d).getD []) (strDropRight d 4)))).flatten)
        with _ | entry <;> rw [hz] at hcontra
      · have hpair : ("BadZipFile", writeFile fs (strDropRight d 4 ++ ".zip") _)
            = ("ValueError", fs2) := Except.error.inj hcontra
        have hmsg : "BadZipFile" = "ValueError" := congrArg Prod.fst hpair
        exact absurd hmsg (by decide)
      · exact Except.noConfusion hcontra

/-- Witness for C10: a `.bak` chunk makes recovery fail with `ValueError` and
an untouched state; a directory whose single chunk suffix is `.1` can never
produce that error. -/
theorem c10_sort_key_parse_witness :
    recover_file (FS.mk [] [("f.dir", [("f.zip.bak", [])])]) "f.dir" true =
      Except.error ("ValueError", FS.mk [] [("f.dir", [("f.zip.bak", [])])]) ∧
    ∀ fs2, recover_file (FS.mk [] [("g.dir", [("g.zip.1", [5])])]) "g.dir" true ≠
      Except.error ("ValueError", fs2) :=
  ⟨(c10_sort_key_parse (FS.mk [] [("f.dir", [("f.zip.bak", [])])]) "f.dir" true
      (by decide)).1 ⟨("f.zip.bak", []), by decide, by decide⟩,
   (c10_sort_key_parse (FS.mk [] [("g.dir", [("g.zip.1", [5])])]) "g.dir" true
      (by decide)).2 (by decide)⟩

/-- C8 counterexample: a regular file whose own name ends in `.dir` (here
`photo.dir`, a non-directory entry at the scan root) has no directory segment
ending in `.dir` in its path and triggers neither the `.zip`-temporary rule
nor the own-script rule, yet the split-mode scan skips it — line 135 tests
every component of `item.parts`, the entry's own final name included — so it
is not passed to the Split Orchestrator, contradicting the claim as stated. -/
theorem c8_counterexample :
    (ScanEntry.mk ["photo.dir"] false).isDirEntry = false ∧
    ((ScanEntry.mk ["photo.dir"] false).parts.dropLast.any
      (fun p => strEndsWith p ".dir")) = false ∧
    zipTempRule (fun _ => false) (ScanEntry.mk ["photo.dir"] false) = false ∧
    scriptRule (ScanEntry.mk ["photo.dir"] false) = false ∧
    splitScanTargets (fun _ => false) [ScanEntry.mk ["photo.dir"] false] = [] := by
  refine ⟨rfl, rfl, rfl, rfl, rfl⟩

/-- C8 (amended): in split mode the scanner passes to the Split Orchestrator
exactly the non-directory entries none of whose path components — the
entry's own final name included — ends in `.dir`, and that are excluded by
neither the `.zip`-temporary rule nor the own-script rule. -/
theorem c8_split_scan_filter (exist : List String → Bool)
    (entries : List ScanEntry) (e : ScanEntry) :
    e ∈ splitScanTargets exist entries ↔
      e ∈ entries ∧ e.isDirEntry = false ∧
      (e.parts.any fun p => strEndsWith p ".dir") = false ∧
      zipTempRule exist e = false ∧ scriptRule e = false := by
  simp only [splitScanTargets, List.mem_filter, Bool.not_eq_true', splitSkips,
    Bool.or_eq_false_iff]
  tauto

/-- Witness for C8 (amended): an ordinary file at the root is passed through. -/
theorem c8_split_scan_filter_witness :
    ScanEntry.mk ["big.bin"] false ∈
      splitScanTargets (fun _ => false) [ScanEntry.mk ["big.bin"] false] :=
  (c8_split_scan_filter (fun _ => false) [ScanEntry.mk ["big.bin"] false]
    (ScanEntry.mk ["big.bin"] false)).mpr
    ⟨List.mem_singleton.mpr rfl, rfl, rfl, rfl, rfl⟩

/-- C5: the transient `.zip` container never survives a successful
orchestration step: any split of an over-threshold file ends with no
`<name>.zip` in the parent directory, and any recovery that found, sorted
and extracted chunks ends with no `<orig>.zip` in the parent directory. -/
theorem c5_container_deleted :
    (∀ (fs : FS) (name : String) (data : Bytes) (ar : Bool),
      lookupFile fs name = some data → MAX_SIZE < data.length →
      ∃ fs1, compress_and_split fs name ar = Except.ok fs1 ∧
        lookupFile fs1 (name ++ ".zip") = none) ∧
    (∀ (fs : FS) (d : String) (ar : Bool) (l : Listing) (entry : String × Bytes),
      strEndsWith d ".dir" = true →
      sortChunks (chunkMatches ((lookupDir fs d).getD [])
        (strDropRight d 4)) = some l →
      l ≠ [] → zipExtract ((l.map Prod.snd).flatten) = some entry →
      ∃ fs2, recover_file fs d ar = Except.ok fs2 ∧
        lookupFile fs2 (strDropRight d 4 ++ ".zip") = none) := by
  constructor
  · intro fs name data ar hf hsz
    obtain ⟨fs1, hrun, hfiles, _⟩ := compress_and_split_state fs name data ar hf hsz
    refine ⟨fs1, hrun, ?_⟩
    have hzn : (name ++ ".zip") ≠ name :=
      fun he => strNe_append name ".zip" (by decide) he.symm
    show fs1.files.lookup (name ++ ".zip") = none
    rw [hfiles]
    rcases ar with _ | _
    · rw [if_neg (fun h => Bool.noConfusion h)]
      exact lookup_eraseAssoc_self _ _
    · rw [if_pos rfl, lookup_eraseAssoc_ne _ _ name hzn]
      exact lookup_eraseAssoc_self _ _
  · intro fs d ar l entry hsuf hsort hne hex
    obtain ⟨fs2, hrun, hfiles, _⟩ := recover_file_state fs d ar l entry hsuf hsort hne hex
    refine ⟨fs2, hrun, ?_⟩
    show fs2.files.lookup (strDropRight d 4 ++ ".zip") = none
    rw [hfiles]
    exact lookup_eraseAssoc_self _ _

/-- Witness for C5: the split half on a just-over-threshold file; the
recovery half on a one-chunk directory holding a well-formed container. -/
theorem c5_container_deleted_witness :
    (∃ fs1, compress_and_split (FS.mk [("g", List.replicate 1048577 0)] []) "g" false
        = Except.ok fs1 ∧ lookupFile fs1 ("g" ++ ".zip") = none) ∧
    (∃ fs2, recover_file (FS.mk [] [("f.dir", [("f.zip.1", zipCompress "f" [7, 8])])])
        "f.dir" false = Except.ok fs2 ∧
      lookupFile fs2 (strDropRight "f.dir" 4 ++ ".zip") = none) :=
  ⟨c5_container_deleted.1 (FS.mk [("g", List.replicate 1048577 0)] []) "g"
      (List.replicate 1048577 0) false rfl
      (by rw [List.length_replicate]; decide),
   c5_container_deleted.2 (FS.mk [] [("f.dir", [("f.zip.1", zipCompress "f" [7, 8])])])
      "f.dir" false [("f.zip.1", zipCompress "f" [7, 8])] ("f", [7, 8])
      (by decide) (by decide) (by decide) (by decide)⟩

/-- C6: auto-remove gating. After a successful split of an over-threshold
file the source file exists (with its original bytes) exactly when
auto-remove is disabled; after a successful chunk recovery the chunk
directory exists (unchanged) exactly when auto-remove is disabled. -/
theorem c6_auto_remove_gating :
    (∀ (fs : FS) (name : String) (data : Bytes) (ar : Bool),
      lookupFile fs name = some data → MAX_SIZE < data.length →
      ∃ fs1, compress_and_split fs name ar = Except.ok fs1 ∧
        lookupFile fs1 name = (if ar = true then none else some data)) ∧
    (∀ (fs : FS) (d : String) (ar : Bool) (l : Listing) (entry : String × Bytes),
      strEndsWith d ".dir" = true →
      sortChunks (chunkMatches ((lookupDir fs d).getD [])
        (strDropRight d 4)) = some l →
      l ≠ [] → zipExtract ((l.map Prod.snd).flatten) = some entry →
      ∃ fs2, recover_file fs d ar = Except.ok fs2 ∧
        lookupDir fs2 d = (if ar = true then none else lookupDir fs d)) := by
  constructor
  · intro fs name data ar hf hsz
    obtain ⟨fs1, hrun, hfiles, _⟩ := compress_and_split_state fs name data ar hf hsz
    refine ⟨fs1, hrun, ?_⟩
    have hnz : name ≠ (name ++ ".zip") := strNe_append name ".zip" (by decide)
    show fs1.files.lookup name = _
    rw [hfiles]
    rcases ar with _ | _
    · rw [if_neg (fun h => Bool.noConfusion h), if_neg (fun h => Bool.noConfusion h),
        lookup_eraseAssoc_ne _ name _ hnz, lookup_setAssoc_ne _ name _ _ hnz]
      exact hf
    · rw [if_pos rfl, if_pos rfl]
      exact lookup_eraseAssoc_self _ _
  · intro fs d ar l entry hsuf hsort hne hex
    obtain ⟨fs2, hrun, _, hdirs⟩ := recover_file_state fs d ar l entry hsuf hsort hne hex
    refine ⟨fs2, hrun, ?_⟩
    show fs2.dirs.lookup d = _
    rw [hdirs]
    rcases ar with _ | _
    · rw [if_neg (fun h => Bool.noConfusion h), if_neg (fun h => Bool.noConfusion h)]
      rfl
    · rw [if_pos rfl, if_pos rfl]
      exact lookup_eraseAssoc_self _ _

/-- Witness for C6: source-file presence after splits without and with
auto-remove, and chunk-directory presence after recoveries without and with
auto-remove, all at concrete states. -/
theorem c6_auto_remove_gating_witness :
    (∃ fs1, compress_and_split (FS.mk [("g", List.replicate 1048577 0)] []) "g" false
        = Except.ok fs1 ∧ lookupFile fs1 "g" = some (List.replicate 1048577 0)) ∧
    (∃ fs1, compress_and_split (FS.mk [("g", List.replicate 1048577 0)] []) "g" true
        = Except.ok fs1 ∧ lookupFile fs1 "g" = none) ∧
    (∃ fs2, recover_file (FS.mk [] [("f.dir", [("f.zip.1", zipCompress "f" [7, 8])])])
        "f.dir" true = Except.ok fs2 ∧ lookupDir fs2 "f.dir" = none) := by
  refine ⟨?_, ?_, ?_⟩
  · have h := c6_auto_remove_gating.1 (FS.mk [("g", List.replicate 1048577 0)] [])
      "g" (List.replicate 1048577 0) false rfl (by rw [List.length_replicate]; decide)
    rw [if_neg (fun hc => Bool.noConfusion hc)] at h
    exact h
  · have h := c6_auto_remove_gating.1 (FS.mk [("g", List.replicate 1048577 0)] [])
      "g" (List.replicate 1048577 0) true rfl (by rw [List.length_replicate]; decide)
    rw [if_pos rfl] at h
    exact h
  · have h := c6_auto_remove_gating.2
      (FS.mk [] [("f.dir", [("f.zip.1", zipCompress "f" [7, 8])])]) "f.dir" true
      [("f.zip.1", zipCompress "f" [7, 8])] ("f", [7, 8])
      (by decide) (by decide) (by decide) (by decide)
    rw [if_pos rfl] at h
    exact h

/-- C1: the round-trip law. For a file strictly above the threshold (and no
pre-existing chunk directory of the same name), splitting and then running
recovery on the resulting chunk directory succeeds and recreates the file at
its original path with exactly its original bytes, for any combination of
auto-remove flags. -/
theorem c1_round_trip (fs : FS) (name : String) (data : Bytes) (ar1 ar2 : Bool)
    (hf : lookupFile fs name = some data) (hsz : MAX_SIZE < data.length)
    (hd : lookupDir fs (name ++ ".dir") = none) :
    ∃ fs1 fs2, compress_and_split fs name ar1 = Except.ok fs1 ∧
      recover_file fs1 (name ++ ".dir") ar2 = Except.ok fs2 ∧
      lookupFile fs2 name = some data := by
  obtain ⟨fs1, hrun1, hfiles1, hdirs1⟩ := compress_and_split_state fs name data ar1 hf hsz
  have hzipdata : (name ++ ".zip").data ≠ [] := strData_append_ne_nil name ".zip" (by decide)
  have hpair : List.Pairwise (fun a b => a.1 ≠ b.1)
      (split_file (name ++ ".zip") CHUNK_SIZE (zipCompress name data)) :=
    numberChunks_pairwise_ne (name ++ ".zip") _ hzipdata 1
  have hdir1 : lookupDir fs1 (name ++ ".dir") =
      some (split_file (name ++ ".zip") CHUNK_SIZE (zipCompress name data)) := by
    show fs1.dirs.lookup (name ++ ".dir") = _
    rw [hdirs1, lookup_setAssoc_self]
    congr 1
    rw [lookupDir_mkdirP_self_none fs (name ++ ".dir") hd, Option.getD_some,
      foldl_setAssoc_fresh _ [] (fun p hp => rfl) hpair, List.nil_append]
  have horig : strDropRight (name ++ ".dir") 4 = name := strDropRight_dir name
  have hmatch : chunkMatches (split_file (name ++ ".zip") CHUNK_SIZE
      (zipCompress name data)) name =
      split_file (name ++ ".zip") CHUNK_SIZE (zipCompress name data) :=
    chunkMatches_numberChunks name _ 1
  have hsort : sortChunks (chunkMatches
      ((lookupDir fs1 (name ++ ".dir")).getD [])
      (strDropRight (name ++ ".dir") 4)) =
      some (split_file (name ++ ".zip") CHUNK_SIZE (zipCompress name data)) := by
    rw [hdir1, Option.getD_some, horig, hmatch]
    exact sortChunks_numberChunks (name ++ ".zip") _ hzipdata
  have hps_ne : split_file (name ++ ".zip") CHUNK_SIZE (zipCompress name data) ≠ [] := by
    intro he
    have hlen := congrArg List.length he
    rw [split_file, numberChunks_length, List.length_nil] at hlen
    rcases (splitChunks_eq_nil_iff CHUNK_SIZE (zipCompress name data)).mp
        (List.length_eq_zero.mp hlen) with h | h
    · exact absurd h (by decide)
    · exact zipCompress_ne_nil name data h
  have hflat : ((split_file (name ++ ".zip") CHUNK_SIZE
      (zipCompress name data)).map Prod.snd).flatten = zipCompress name data := by
    rw [show (split_file (name ++ ".zip") CHUNK_SIZE
        (zipCompress name data)).map Prod.snd =
      splitChunks CHUNK_SIZE (zipCompress name data) from numberChunks_map_snd _ _ 1]
    exact splitChunks_flatten _ _ (by decide)
  have hex : zipExtract (((split_file (name ++ ".zip") CHUNK_SIZE
      (zipCompress name data)).map Prod.snd).flatten) = some (name, data) := by
    rw [hflat]
    exact zipExtract_zipCompress name data
  obtain ⟨fs2, hrun2, hfiles2, hdirs2⟩ := recover_file_state fs1 (name ++ ".dir") ar2
    (split_file (name ++ ".zip") CHUNK_SIZE (zipCompress name data)) (name, data)
    (strEndsWith_append name ".dir") hsort hps_ne hex
  refine ⟨fs1, fs2, hrun1, hrun2, ?_⟩
  rw [horig] at hfiles2
  have hnz : name ≠ name ++ ".zip" := strNe_append name ".zip" (by decide)
  show fs2.files.lookup name = some data
  rw [hfiles2, lookup_eraseAssoc_ne _ name _ hnz]
  exact lookup_setAssoc_self _ name data

/-- Witness for C1 on a 1,048,577-byte file, with auto-remove enabled on
both passes. -/
theorem c1_round_trip_witness :
    ∃ fs1 fs2,
      compress_and_split (FS.mk [("g", List.replicate 1048577 0)] []) "g" true =
        Except.ok fs1 ∧
      recover_file fs1 ("g" ++ ".dir") true = Except.ok fs2 ∧
      lookupFile fs2 "g" = some (List.replicate 1048577 0) :=
  c1_round_trip (FS.mk [("g", List.replicate 1048577 0)] []) "g"
    (List.replicate 1048577 0) true true rfl
    (by rw [List.length_replicate]; decide) rfl
